import Mathlib

/-!
Verification of the signal-reduction core of the battery-degradation
repository: the rainflow cycle counter with Goodman correction
(`src/lib/rainflow/rainflow.py`, function `rainflow`) and the cycle
aggregator (`src/degradation_model/cycle_counting_algorithm.py`,
method `CycleCounter.rainflow_process`).

Embedding conventions:
- Python floats are modelled as rationals (`ℚ`); the algorithm only uses
  `+ - * / fabs` and comparisons, which on the concrete inputs used by the
  claims are exact in both models.  In `ℚ` a division by zero yields `0`
  where IEEE arithmetic would yield `±inf`/`NaN`; this matters only for the
  degenerate-margin discussion, where the relevant decidable fact is that
  the code takes no error path at all.
- The source's working buffer `a[0..j]` is modelled as a `List ℚ` with the
  MOST RECENT point (`a[j]`) at the head.
- The source's output buffer `array_out` (one column per emitted cycle) is
  modelled as a `List RFCycle` appended in discovery order.
- Inputs of fewer than 2 points raise: `np.zeros((5, tot_num - 1))`
  raises a `ValueError` (negative dimension) when the input array is
  empty, and for a one-point input the non-short-circuiting `&` of the
  while condition evaluates the out-of-bounds read `a[-2]` on the
  one-element work buffer, raising an `IndexError`.  `rainflow` therefore
  returns an `Option`, with `none` for these error paths and `some` for a
  normal return.
- The state carries two ghost counters, `emittedUnits` and
  `discardedUnits`, that count the half-interval units consumed by each
  emission or zero-range discard (2 for the "full range" branch, 1 for the
  "partial range" and residual branches).  They instrument the control
  flow of the source without affecting the cycle list.
-/

/-- One emitted rainflow cycle: the five rows of a column of the source's
`array_out` (load range, range mean, Goodman-adjusted range, cycle count,
Goodman-adjusted range with zero fixed-load mean). -/
structure RFCycle where
  lrange : ℚ
  mean : ℚ
  adj_range : ℚ
  count : ℚ
  adj_zero_mean_range : ℚ
deriving DecidableEq

/-- Absolute value as the source uses it (`numpy.fabs`). -/
def fabs (x : ℚ) : ℚ := if x < 0 then -x else x

/-- Fields written by every emission site of `rainflow` (all three sites
compute the same formulas): `adj_range = lrange * flmargin / (l_ult - fabs mean)`
and `adj_zero_mean_range = lrange * l_ult / (l_ult - fabs mean)`, with
`flmargin = l_ult - fabs flm` precomputed by the caller. -/
def mkCycle (flmargin l_ult lrange mean w : ℚ) : RFCycle :=
  ⟨lrange, mean, lrange * flmargin / (l_ult - fabs mean), w,
   lrange * l_ult / (l_ult - fabs mean)⟩

/-- Algorithm state: working stack (head = most recent point `a[j]`),
emitted cycles in discovery order, and the two ghost unit counters. -/
structure RFState where
  stack : List ℚ
  out : List RFCycle
  emittedUnits : ℕ
  discardedUnits : ℕ
deriving DecidableEq

/-- The `while` loop of `rainflow`, fuelled to make it structurally
recursive; the wrapper `collapse` supplies fuel `stack.length`, which is
always sufficient because every iteration shortens the stack.
Condition: `fabs(a[j-1]-a[j-2]) <= fabs(a[j]-a[j-1])` with head-first
stack `c = a[j], b = a[j-1], a = a[j-2]`.  The `j == 2` branch ("partial
range", weight `uc`) shifts the stack down by one; the `else` branch
("full range", weight 1) removes two points, writing `a[j-2] = a[j]`.
Emission happens only when `lrange > 0`. -/
def collapseN (flmargin l_ult uc : ℚ) : ℕ → RFState → RFState
  | 0, s => s
  | fuel + 1, s =>
    match s.stack with
    | c :: b :: a :: rest =>
      if fabs (b - a) ≤ fabs (c - b) then
        match rest with
        | [] =>
          collapseN flmargin l_ult uc fuel
            ⟨[c, b],
             (if 0 < fabs (b - a) then
                s.out ++ [mkCycle flmargin l_ult (fabs (b - a)) ((a + b) / 2) uc]
              else s.out),
             s.emittedUnits + (if 0 < fabs (b - a) then 1 else 0),
             s.discardedUnits + (if 0 < fabs (b - a) then 0 else 1)⟩
        | _ :: _ =>
          collapseN flmargin l_ult uc fuel
            ⟨c :: rest,
             (if 0 < fabs (b - a) then
                s.out ++ [mkCycle flmargin l_ult (fabs (b - a)) ((b + a) / 2) 1]
              else s.out),
             s.emittedUnits + (if 0 < fabs (b - a) then 2 else 0),
             s.discardedUnits + (if 0 < fabs (b - a) then 0 else 2)⟩
      else s
    | _ => s

/-- The `while` loop of `rainflow`, run to completion from state `s`. -/
def collapse (flmargin l_ult uc : ℚ) (s : RFState) : RFState :=
  collapseN flmargin l_ult uc s.stack.length s

/-- One iteration of the `for i in range(tot_num)` loop: push the next
turning point onto the working stack, then run the `while` loop. -/
def rfStep (flmargin l_ult uc : ℚ) (s : RFState) (x : ℚ) : RFState :=
  collapse flmargin l_ult uc ⟨x :: s.stack, s.out, s.emittedUnits, s.discardedUnits⟩

/-- The main `for` loop of `rainflow` over all turning points. -/
def rfLoop (flmargin l_ult uc : ℚ) (input : List ℚ) : RFState :=
  input.foldl (rfStep flmargin l_ult uc) ⟨[], [], 0, 0⟩

/-- Adjacent pairs `(a[i], a[i+1])` for `i in range(j)`, bottom-first. -/
def residualPairs : List ℚ → List (ℚ × ℚ)
  | x :: y :: rest => (x, y) :: residualPairs (y :: rest)
  | _ => []

/-- One iteration of the trailing "partial range" loop of `rainflow`:
emit the residual interval `(a[i], a[i+1])` as a half cycle of weight
`uc` when its range is positive, else discard it. -/
def residualStep (flmargin l_ult uc : ℚ) (s : RFState) (pq : ℚ × ℚ) : RFState :=
  ⟨s.stack,
   (if 0 < fabs (pq.1 - pq.2) then
      s.out ++ [mkCycle flmargin l_ult (fabs (pq.1 - pq.2)) ((pq.1 + pq.2) / 2) uc]
    else s.out),
   s.emittedUnits + (if 0 < fabs (pq.1 - pq.2) then 1 else 0),
   s.discardedUnits + (if 0 < fabs (pq.1 - pq.2) then 0 else 1)⟩

/-- Full run of `rainflow` on a (nonempty) turning-point array: main loop
followed by the residual loop over the surviving stack, bottom-up
(`a[0..j]` is the reverse of the head-first stack).  Defaults in the
source: `flm = 0`, `l_ult = 1e16`, `uc_mult = 0.5`. -/
def rainflowRun (array_ext : List ℚ) (flm l_ult uc_mult : ℚ) : RFState :=
  let flmargin := l_ult - fabs flm
  let s := rfLoop flmargin l_ult uc_mult array_ext
  (residualPairs s.stack.reverse).foldl (residualStep flmargin l_ult uc_mult) s

/-- Entry point `rainflow(array_ext, flm=0, l_ult=1e16, uc_mult=0.5)`.
Inputs of fewer than 2 points raise before any cycle is produced, and
both error paths are modelled as `none`: with an empty input array the
allocation `np.zeros((5, tot_num - 1))` has a negative dimension and
raises a `ValueError`; with a one-point input the while condition
`(j >= 2) & (fabs(a[j-1] - a[j-2]) <= fabs(a[j] - a[j-1]))` — whose `&`
does not short-circuit — evaluates `a[j-2] = a[-2]` at `j = 0`, an
out-of-bounds read of the one-element buffer `a`, raising `IndexError`.
(For inputs of 2 or more points every index the condition reads at
`j < 2` wraps in-bounds under numpy's negative indexing and the garbage
comparison is discarded by the false `j >= 2` conjunct, so no further
error path exists.)  Otherwise the emitted cycle columns are returned in
discovery order. -/
def rainflow (array_ext : List ℚ) (flm l_ult uc_mult : ℚ) : Option (List RFCycle) :=
  if array_ext.length < 2 then none
  else some (rainflowRun array_ext flm l_ult uc_mult).out

/-- Sum of the count weights (row 4 of `array_out`) of a cycle list. -/
def sumCounts (cycles : List RFCycle) : ℚ :=
  (cycles.map RFCycle.count).sum

/-- Ranges of consecutive stack intervals strictly decrease toward the
top of the stack (head-first list): `|a[j]-a[j-1]| < |a[j-1]-a[j-2]| < …`. -/
def decrRanges : List ℚ → Prop
  | x :: y :: z :: rest => fabs (x - y) < fabs (y - z) ∧ decrRanges (y :: z :: rest)
  | _ => True

/-- Output record of `CycleCounter.rainflow_process`: the fields the
method stores on the object (`mean_soc`, `arr_dod`, `arr_n`,
`arr_soc_mean`). -/
structure ProcOut where
  mean_soc : ℚ
  arr_dod : List ℚ
  arr_n : List ℚ
  arr_soc_mean : List ℚ
deriving DecidableEq

/-- Turning-point sequence built by `rainflow_process`: concatenate the
(position, value) minima and maxima, sort by position (`argsort` on
column 0, modelled by a stable insertion sort), and keep the values. -/
def array_ext_of (min_points max_points : List (ℚ × ℚ)) : List ℚ :=
  (List.insertionSort (fun p q => p.1 ≤ q.1) (min_points ++ max_points)).map Prod.snd

/-- RFCycle columns sorted by load range: `array_out[:, array_out[0, :].argsort()]`,
modelled by a stable insertion sort on the range row. -/
def sortCyclesByRange (cycles : List RFCycle) : List RFCycle :=
  List.insertionSort (fun c d => c.lrange ≤ d.lrange) cycles

/-- Method `CycleCounter.rainflow_process`: run `rainflow` with its
default configuration on the merged turning points, sort the cycles by
range, and store the hard-coded percentage-to-fraction conversions
(`/100`) of the signal mean, the cycle ranges and the cycle means; the
count row is stored unscaled.  `np.mean` of the series is its sum over
its length. -/
def rainflow_process (series : List ℚ) (min_points max_points : List (ℚ × ℚ)) :
    Option ProcOut :=
  match rainflow (array_ext_of min_points max_points) 0 (10 ^ 16) (1 / 2) with
  | none => none
  | some cycles =>
      let srt := sortCyclesByRange cycles
      some ⟨series.sum / (series.length : ℚ) / 100,
            srt.map (fun c => c.lrange / 100),
            srt.map RFCycle.count,
            srt.map (fun c => c.mean / 100)⟩

theorem fabs_eq_abs (x : ℚ) : fabs x = |x| := by
  unfold fabs
  split
  · exact (abs_of_neg (by assumption)).symm
  · exact (abs_of_nonneg (by linarith [not_lt.mp (by assumption)])).symm

/-- Measure used by the conservation argument: emitted half-interval
units, discarded half-interval units, and points still on the stack. -/
def unitTotal (s : RFState) : ℕ :=
  s.emittedUnits + s.discardedUnits + s.stack.length

theorem collapseN_unitTotal (flmargin l_ult uc : ℚ) :
    ∀ (f : ℕ) (s : RFState),
      unitTotal (collapseN flmargin l_ult uc f s) = unitTotal s := by
  intro f
  induction f with
  | zero => intro s; rfl
  | succ f ih =>
    rintro ⟨st, o, e, d⟩
    rcases st with _ | ⟨c, _ | ⟨b, _ | ⟨a, _ | ⟨r, rs⟩⟩⟩⟩
    · rfl
    · rfl
    · rfl
    · simp only [collapseN]
      by_cases hc : fabs (b - a) ≤ fabs (c - b)
      · rw [if_pos hc, ih]
        unfold unitTotal
        simp only
        split_ifs <;> simp <;> omega
      · rw [if_neg hc]
    · simp only [collapseN]
      by_cases hc : fabs (b - a) ≤ fabs (c - b)
      · rw [if_pos hc, ih]
        unfold unitTotal
        simp only [List.length_cons]
        split_ifs <;> omega
      · rw [if_neg hc]

theorem rfStep_unitTotal (flmargin l_ult uc : ℚ) (s : RFState) (x : ℚ) :
    unitTotal (rfStep flmargin l_ult uc s x) = unitTotal s + 1 := by
  unfold rfStep collapse
  rw [collapseN_unitTotal]
  unfold unitTotal
  simp only [List.length_cons]
  omega

theorem foldl_rfStep_unitTotal (flmargin l_ult uc : ℚ) :
    ∀ (l : List ℚ) (s : RFState),
      unitTotal (l.foldl (rfStep flmargin l_ult uc) s) = unitTotal s + l.length := by
  intro l
  induction l with
  | nil => intro s; simp
  | cons x xs ih =>
    intro s
    simp only [List.foldl_cons, List.length_cons]
    rw [ih, rfStep_unitTotal]
    omega

theorem rfLoop_unitTotal (flmargin l_ult uc : ℚ) (input : List ℚ) :
    unitTotal (rfLoop flmargin l_ult uc input) = input.length := by
  unfold rfLoop
  rw [foldl_rfStep_unitTotal]
  simp [unitTotal]

theorem collapseN_stack_ne (flmargin l_ult uc : ℚ) :
    ∀ (f : ℕ) (s : RFState), s.stack ≠ [] →
      (collapseN flmargin l_ult uc f s).stack ≠ [] := by
  intro f
  induction f with
  | zero => intro s h; exact h
  | succ f ih =>
    rintro ⟨st, o, e, d⟩ h
    rcases st with _ | ⟨c, _ | ⟨b, _ | ⟨a, _ | ⟨r, rs⟩⟩⟩⟩
    · exact h
    · exact h
    · exact h
    · simp only [collapseN]
      by_cases hc : fabs (b - a) ≤ fabs (c - b)
      · rw [if_pos hc]
        exact ih _ (by simp)
      · rw [if_neg hc]
        exact h
    · simp only [collapseN]
      by_cases hc : fabs (b - a) ≤ fabs (c - b)
      · rw [if_pos hc]
        exact ih _ (by simp)
      · rw [if_neg hc]
        exact h

theorem rfStep_stack_ne (flmargin l_ult uc : ℚ) (s : RFState) (x : ℚ) :
    (rfStep flmargin l_ult uc s x).stack ≠ [] := by
  unfold rfStep collapse
  exact collapseN_stack_ne flmargin l_ult uc _ _ (by simp)

theorem foldl_rfStep_stack_ne (flmargin l_ult uc : ℚ) :
    ∀ (l : List ℚ) (s : RFState), s.stack ≠ [] ∨ l ≠ [] →
      (l.foldl (rfStep flmargin l_ult uc) s).stack ≠ [] := by
  intro l
  induction l with
  | nil =>
    intro s h
    rcases h with h | h
    · exact h
    · exact absurd rfl h
  | cons x xs ih =>
    intro s _
    simp only [List.foldl_cons]
    exact ih _ (Or.inl (rfStep_stack_ne flmargin l_ult uc s x))

theorem rfLoop_stack_ne (flmargin l_ult uc : ℚ) (input : List ℚ) (h : input ≠ []) :
    (rfLoop flmargin l_ult uc input).stack ≠ [] :=
  foldl_rfStep_stack_ne flmargin l_ult uc input _ (Or.inr h)

theorem residualStep_stack (flmargin l_ult uc : ℚ) (s : RFState) (pq : ℚ × ℚ) :
    (residualStep flmargin l_ult uc s pq).stack = s.stack := rfl

theorem foldl_residualStep_stack (flmargin l_ult uc : ℚ) :
    ∀ (l : List (ℚ × ℚ)) (s : RFState),
      (l.foldl (residualStep flmargin l_ult uc) s).stack = s.stack := by
  intro l
  induction l with
  | nil => intro s; rfl
  | cons pq l ih =>
    intro s
    simp only [List.foldl_cons]
    rw [ih, residualStep_stack]

theorem residualStep_units (flmargin l_ult uc : ℚ) (s : RFState) (pq : ℚ × ℚ) :
    (residualStep flmargin l_ult uc s pq).emittedUnits +
      (residualStep flmargin l_ult uc s pq).discardedUnits =
      s.emittedUnits + s.discardedUnits + 1 := by
  unfold residualStep
  simp only
  split_ifs <;> omega

theorem foldl_residualStep_units (flmargin l_ult uc : ℚ) :
    ∀ (l : List (ℚ × ℚ)) (s : RFState),
      (l.foldl (residualStep flmargin l_ult uc) s).emittedUnits +
        (l.foldl (residualStep flmargin l_ult uc) s).discardedUnits =
        s.emittedUnits + s.discardedUnits + l.length := by
  intro l
  induction l with
  | nil => intro s; rfl
  | cons pq l ih =>
    intro s
    simp only [List.foldl_cons, List.length_cons]
    rw [ih, residualStep_units]
    omega

theorem residualPairs_length : ∀ (l : List ℚ), (residualPairs l).length = l.length - 1
  | [] => rfl
  | [_] => rfl
  | x :: y :: rest => by
    simp only [residualPairs, List.length_cons]
    rw [residualPairs_length (y :: rest)]
    simp only [List.length_cons]
    omega

/-- Conservation of consumed interval units on a nonempty input: emitted
units plus discarded units equal the number of turning points minus one. -/
theorem rainflowRun_units (input : List ℚ) (flm l_ult uc : ℚ) (h : input ≠ []) :
    (rainflowRun input flm l_ult uc).emittedUnits +
      (rainflowRun input flm l_ult uc).discardedUnits + 1 = input.length := by
  unfold rainflowRun
  simp only
  rw [foldl_residualStep_units, residualPairs_length]
  have h1 := rfLoop_unitTotal (l_ult - fabs flm) l_ult uc input
  have h2 := rfLoop_stack_ne (l_ult - fabs flm) l_ult uc input h
  unfold unitTotal at h1
  have h3 : (rfLoop (l_ult - fabs flm) l_ult uc input).stack.length ≠ 0 := by
    simpa [List.length_eq_zero] using h2
  simp only [List.length_reverse]
  omega

theorem fabs_sub_comm (x y : ℚ) : fabs (x - y) = fabs (y - x) := by
  rw [fabs_eq_abs, fabs_eq_abs, abs_sub_comm]

theorem sumCounts_cons (c : RFCycle) (l : List RFCycle) :
    sumCounts (c :: l) = c.count + sumCounts l := by
  simp [sumCounts]

theorem sumCounts_append (l1 l2 : List RFCycle) :
    sumCounts (l1 ++ l2) = sumCounts l1 + sumCounts l2 := by
  simp [sumCounts]

theorem mkCycle_count (flmargin l_ult lrange mean w : ℚ) :
    (mkCycle flmargin l_ult lrange mean w).count = w := rfl

/-- Shape of every cycle any emission site can produce: endpoints `p, q`
with positive range, weight either `uc` (partial/residual) or `1` (full),
and all five fields given by `mkCycle`. -/
def EmittedShape (flmargin l_ult uc : ℚ) (c : RFCycle) : Prop :=
  ∃ p q w, (w = uc ∨ w = 1) ∧ 0 < fabs (p - q) ∧
    c = mkCycle flmargin l_ult (fabs (p - q)) ((p + q) / 2) w

theorem collapseN_out (flmargin l_ult uc : ℚ) :
    ∀ (f : ℕ) (s : RFState), ∃ t,
      (collapseN flmargin l_ult uc f s).out = s.out ++ t ∧
      (∀ c ∈ t, EmittedShape flmargin l_ult uc c) ∧
      t.length + s.emittedUnits ≤ (collapseN flmargin l_ult uc f s).emittedUnits ∧
      (uc = 1 / 2 → 2 * sumCounts t + (s.emittedUnits : ℚ) =
        ((collapseN flmargin l_ult uc f s).emittedUnits : ℚ)) := by
  intro f
  induction f with
  | zero =>
    intro s
    exact ⟨[], by simp [collapseN], by simp, by simp [collapseN], by simp [collapseN, sumCounts]⟩
  | succ f ih =>
    rintro ⟨st, o, e, d⟩
    rcases st with _ | ⟨c, _ | ⟨b, _ | ⟨a, _ | ⟨r, rs⟩⟩⟩⟩
    · exact ⟨[], by simp [collapseN], by simp, by simp [collapseN], by simp [collapseN, sumCounts]⟩
    · exact ⟨[], by simp [collapseN], by simp, by simp [collapseN], by simp [collapseN, sumCounts]⟩
    · exact ⟨[], by simp [collapseN], by simp, by simp [collapseN], by simp [collapseN, sumCounts]⟩
    · simp only [collapseN]
      by_cases hc : fabs (b - a) ≤ fabs (c - b)
      · simp only [if_pos hc]
        by_cases hr : 0 < fabs (b - a)
        · simp only [if_pos hr]
          obtain ⟨t, ht, hsh, hlen, hw⟩ :=
            ih ⟨[c, b], o ++ [mkCycle flmargin l_ult (fabs (b - a)) ((a + b) / 2) uc],
                e + 1, d + 0⟩
          refine ⟨mkCycle flmargin l_ult (fabs (b - a)) ((a + b) / 2) uc :: t, ?_, ?_, ?_, ?_⟩
          · rw [ht]; simp
          · intro x hx
            rcases List.mem_cons.mp hx with hx | hx
            · subst hx
              refine ⟨a, b, uc, Or.inl rfl, by rwa [fabs_sub_comm], by rw [fabs_sub_comm a b]⟩
            · exact hsh x hx
          · simp only [List.length_cons] at *
            omega
          · intro huc
            have hw2 := hw huc
            rw [sumCounts_cons, mkCycle_count, huc] at *
            push_cast at hw2 ⊢
            linarith
        · simp only [if_neg hr]
          obtain ⟨t, ht, hsh, hlen, hw⟩ := ih ⟨[c, b], o, e + 0, d + 1⟩
          refine ⟨t, by rw [ht], hsh, ?_, ?_⟩
          · simp only at *
            omega
          · intro huc
            have hw2 := hw huc
            push_cast at hw2 ⊢
            linarith
      · simp only [if_neg hc]
        exact ⟨[], by simp, by simp, by simp, by simp [sumCounts]⟩
    · simp only [collapseN]
      by_cases hc : fabs (b - a) ≤ fabs (c - b)
      · simp only [if_pos hc]
        by_cases hr : 0 < fabs (b - a)
        · simp only [if_pos hr]
          obtain ⟨t, ht, hsh, hlen, hw⟩ :=
            ih ⟨c :: r :: rs, o ++ [mkCycle flmargin l_ult (fabs (b - a)) ((b + a) / 2) 1],
                e + 2, d + 0⟩
          refine ⟨mkCycle flmargin l_ult (fabs (b - a)) ((b + a) / 2) 1 :: t, ?_, ?_, ?_, ?_⟩
          · rw [ht]; simp
          · intro x hx
            rcases List.mem_cons.mp hx with hx | hx
            · subst hx
              exact ⟨b, a, 1, Or.inr rfl, hr, rfl⟩
            · exact hsh x hx
          · simp only [List.length_cons] at *
            omega
          · intro huc
            have hw2 := hw huc
            rw [sumCounts_cons, mkCycle_count] at *
            push_cast at hw2 ⊢
            linarith
        · simp only [if_neg hr]
          obtain ⟨t, ht, hsh, hlen, hw⟩ := ih ⟨c :: r :: rs, o, e + 0, d + 2⟩
          refine ⟨t, by rw [ht], hsh, ?_, ?_⟩
          · simp only at *
            omega
          · intro huc
            have hw2 := hw huc
            push_cast at hw2 ⊢
            linarith
      · simp only [if_neg hc]
        exact ⟨[], by simp, by simp, by simp, by simp [sumCounts]⟩

theorem rfStep_out (flmargin l_ult uc : ℚ) (s : RFState) (x : ℚ) : ∃ t,
    (rfStep flmargin l_ult uc s x).out = s.out ++ t ∧
    (∀ c ∈ t, EmittedShape flmargin l_ult uc c) ∧
    t.length + s.emittedUnits ≤ (rfStep flmargin l_ult uc s x).emittedUnits ∧
    (uc = 1 / 2 → 2 * sumCounts t + (s.emittedUnits : ℚ) =
      ((rfStep flmargin l_ult uc s x).emittedUnits : ℚ)) := by
  unfold rfStep collapse
  exact collapseN_out flmargin l_ult uc _
    ⟨x :: s.stack, s.out, s.emittedUnits, s.discardedUnits⟩

theorem foldl_rfStep_out (flmargin l_ult uc : ℚ) :
    ∀ (l : List ℚ) (s : RFState), ∃ t,
      (l.foldl (rfStep flmargin l_ult uc) s).out = s.out ++ t ∧
      (∀ c ∈ t, EmittedShape flmargin l_ult uc c) ∧
      t.length + s.emittedUnits ≤ (l.foldl (rfStep flmargin l_ult uc) s).emittedUnits ∧
      (uc = 1 / 2 → 2 * sumCounts t + (s.emittedUnits : ℚ) =
        ((l.foldl (rfStep flmargin l_ult uc) s).emittedUnits : ℚ)) := by
  intro l
  induction l with
  | nil => intro s; exact ⟨[], by simp, by simp, by simp, by simp [sumCounts]⟩
  | cons x xs ih =>
    intro s
    obtain ⟨t1, h1, hsh1, hlen1, hw1⟩ := rfStep_out flmargin l_ult uc s x
    obtain ⟨t2, h2, hsh2, hlen2, hw2⟩ := ih (rfStep flmargin l_ult uc s x)
    refine ⟨t1 ++ t2, ?_, ?_, ?_, ?_⟩
    · simp only [List.foldl_cons]
      rw [h2, h1, List.append_assoc]
    · intro c hc
      rcases List.mem_append.mp hc with hc | hc
      · exact hsh1 c hc
      · exact hsh2 c hc
    · simp only [List.foldl_cons, List.length_append]
      omega
    · intro huc
      have e1 := hw1 huc
      have e2 := hw2 huc
      simp only [List.foldl_cons]
      rw [sumCounts_append]
      linarith

theorem residualStep_out (flmargin l_ult uc : ℚ) (s : RFState) (pq : ℚ × ℚ) : ∃ t,
    (residualStep flmargin l_ult uc s pq).out = s.out ++ t ∧
    (∀ c ∈ t, EmittedShape flmargin l_ult uc c) ∧
    t.length + s.emittedUnits ≤ (residualStep flmargin l_ult uc s pq).emittedUnits ∧
    (uc = 1 / 2 → 2 * sumCounts t + (s.emittedUnits : ℚ) =
      ((residualStep flmargin l_ult uc s pq).emittedUnits : ℚ)) := by
  unfold residualStep
  by_cases hr : 0 < fabs (pq.1 - pq.2)
  · refine ⟨[mkCycle flmargin l_ult (fabs (pq.1 - pq.2)) ((pq.1 + pq.2) / 2) uc],
      by simp [if_pos hr], ?_, ?_, ?_⟩
    · intro c hc
      rcases List.mem_singleton.mp hc with rfl
      exact ⟨pq.1, pq.2, uc, Or.inl rfl, hr, rfl⟩
    · simp only [if_pos hr, List.length_singleton]
      omega
    · intro huc
      simp only [if_pos hr, sumCounts, List.map_cons, List.map_nil, List.sum_cons,
        List.sum_nil, mkCycle_count, huc]
      push_cast
      ring
  · refine ⟨[], by simp [if_neg hr], by simp, ?_, ?_⟩
    · simp only [if_neg hr, List.length_nil]
      omega
    · intro _
      simp only [if_neg hr, sumCounts, List.map_nil, List.sum_nil]
      push_cast
      ring

theorem foldl_residualStep_out (flmargin l_ult uc : ℚ) :
    ∀ (l : List (ℚ × ℚ)) (s : RFState), ∃ t,
      (l.foldl (residualStep flmargin l_ult uc) s).out = s.out ++ t ∧
      (∀ c ∈ t, EmittedShape flmargin l_ult uc c) ∧
      t.length + s.emittedUnits ≤ (l.foldl (residualStep flmargin l_ult uc) s).emittedUnits ∧
      (uc = 1 / 2 → 2 * sumCounts t + (s.emittedUnits : ℚ) =
        ((l.foldl (residualStep flmargin l_ult uc) s).emittedUnits : ℚ)) := by
  intro l
  induction l with
  | nil => intro s; exact ⟨[], by simp, by simp, by simp, by simp [sumCounts]⟩
  | cons pq xs ih =>
    intro s
    obtain ⟨t1, h1, hsh1, hlen1, hw1⟩ := residualStep_out flmargin l_ult uc s pq
    obtain ⟨t2, h2, hsh2, hlen2, hw2⟩ := ih (residualStep flmargin l_ult uc s pq)
    refine ⟨t1 ++ t2, ?_, ?_, ?_, ?_⟩
    · simp only [List.foldl_cons]
      rw [h2, h1, List.append_assoc]
    · intro c hc
      rcases List.mem_append.mp hc with hc | hc
      · exact hsh1 c hc
      · exact hsh2 c hc
    · simp only [List.foldl_cons, List.length_append]
      omega
    · intro huc
      have e1 := hw1 huc
      have e2 := hw2 huc
      simp only [List.foldl_cons]
      rw [sumCounts_append]
      linarith

/-- Every cycle in the output of a full run has the common emission
shape (positive range, `mkCycle` fields, weight `uc` or `1`). -/
theorem rainflowRun_out_shape (input : List ℚ) (flm l_ult uc : ℚ) :
    ∀ c ∈ (rainflowRun input flm l_ult uc).out,
      EmittedShape (l_ult - fabs flm) l_ult uc c := by
  intro c hc
  obtain ⟨t2, h2, hsh2, _, _⟩ := foldl_residualStep_out (l_ult - fabs flm) l_ult uc
    (residualPairs (rfLoop (l_ult - fabs flm) l_ult uc input).stack.reverse)
    (rfLoop (l_ult - fabs flm) l_ult uc input)
  obtain ⟨t1, h1, hsh1, _, _⟩ := foldl_rfStep_out (l_ult - fabs flm) l_ult uc input
    ⟨[], [], 0, 0⟩
  have h1' : (rfLoop (l_ult - fabs flm) l_ult uc input).out = [] ++ t1 := h1
  unfold rainflowRun at hc
  simp only at hc
  rw [h2, h1'] at hc
  simp only [List.nil_append] at hc
  rcases List.mem_append.mp hc with hc | hc
  · exact hsh1 c hc
  · exact hsh2 c hc

/-- The number of emitted cycle records never exceeds the emitted units. -/
theorem rainflowRun_out_length (input : List ℚ) (flm l_ult uc : ℚ) :
    (rainflowRun input flm l_ult uc).out.length ≤
      (rainflowRun input flm l_ult uc).emittedUnits := by
  obtain ⟨t2, h2, _, hlen2, _⟩ := foldl_residualStep_out (l_ult - fabs flm) l_ult uc
    (residualPairs (rfLoop (l_ult - fabs flm) l_ult uc input).stack.reverse)
    (rfLoop (l_ult - fabs flm) l_ult uc input)
  obtain ⟨t1, h1, _, hlen1, _⟩ := foldl_rfStep_out (l_ult - fabs flm) l_ult uc input
    ⟨[], [], 0, 0⟩
  have h1' : (rfLoop (l_ult - fabs flm) l_ult uc input).out = [] ++ t1 := h1
  have hlen1' : t1.length + 0 ≤ (rfLoop (l_ult - fabs flm) l_ult uc input).emittedUnits :=
    hlen1
  unfold rainflowRun
  simp only
  rw [h2, h1']
  simp only [List.nil_append, List.length_append]
  omega

/-- With the default `uc_mult = 1/2`, twice the sum of the emitted count
weights equals the number of emitted interval units. -/
theorem rainflowRun_weights (input : List ℚ) (flm l_ult : ℚ) :
    2 * sumCounts (rainflowRun input flm l_ult (1 / 2)).out =
      ((rainflowRun input flm l_ult (1 / 2)).emittedUnits : ℚ) := by
  obtain ⟨t2, h2, _, _, hw2⟩ := foldl_residualStep_out (l_ult - fabs flm) l_ult (1 / 2)
    (residualPairs (rfLoop (l_ult - fabs flm) l_ult (1 / 2) input).stack.reverse)
    (rfLoop (l_ult - fabs flm) l_ult (1 / 2) input)
  obtain ⟨t1, h1, _, _, hw1⟩ := foldl_rfStep_out (l_ult - fabs flm) l_ult (1 / 2) input
    ⟨[], [], 0, 0⟩
  have e1 := hw1 rfl
  have e2 := hw2 rfl
  have h1' : (rfLoop (l_ult - fabs flm) l_ult (1 / 2) input).out = [] ++ t1 := h1
  have e1' : 2 * sumCounts t1 + ((0 : ℕ) : ℚ) =
      ((rfLoop (l_ult - fabs flm) l_ult (1 / 2) input).emittedUnits : ℚ) := e1
  unfold rainflowRun
  simp only
  rw [h2, h1']
  simp only [List.nil_append]
  rw [sumCounts_append]
  push_cast at e1' e2 ⊢
  linarith

theorem decrRanges_tail (x : ℚ) (l : List ℚ) (h : decrRanges (x :: l)) : decrRanges l := by
  match l with
  | [] => trivial
  | [_] => trivial
  | y :: z :: rest => exact h.2

theorem collapseN_decr (flmargin l_ult uc : ℚ) :
    ∀ (f : ℕ) (s : RFState), s.stack.length ≤ f →
      decrRanges s.stack.tail → decrRanges (collapseN flmargin l_ult uc f s).stack := by
  intro f
  induction f with
  | zero =>
    rintro ⟨st, o, e, d⟩ hf _
    have hst : st = [] := List.length_eq_zero.mp (Nat.le_zero.mp hf)
    subst hst
    trivial
  | succ f ih =>
    rintro ⟨st, o, e, d⟩ hf hd
    rcases st with _ | ⟨c, _ | ⟨b, _ | ⟨a, _ | ⟨r, rs⟩⟩⟩⟩
    · trivial
    · trivial
    · trivial
    · simp only [collapseN]
      by_cases hc : fabs (b - a) ≤ fabs (c - b)
      · simp only [if_pos hc]
        apply ih
        · simp only [List.length_cons] at hf ⊢
          simp only [List.length_nil]
          omega
        · trivial
      · simp only [if_neg hc]
        exact ⟨not_le.mp hc, trivial⟩
    · simp only [collapseN]
      by_cases hc : fabs (b - a) ≤ fabs (c - b)
      · simp only [if_pos hc]
        apply ih
        · simp only [List.length_cons] at hf ⊢
          omega
        · exact decrRanges_tail _ _ (decrRanges_tail _ _ hd)
      · simp only [if_neg hc]
        exact ⟨not_le.mp hc, hd⟩

theorem rfStep_decr (flmargin l_ult uc : ℚ) (s : RFState) (x : ℚ)
    (h : decrRanges s.stack) : decrRanges (rfStep flmargin l_ult uc s x).stack := by
  unfold rfStep collapse
  exact collapseN_decr flmargin l_ult uc _ _ le_rfl h

theorem foldl_rfStep_decr (flmargin l_ult uc : ℚ) :
    ∀ (l : List ℚ) (s : RFState), decrRanges s.stack →
      decrRanges ((l.foldl (rfStep flmargin l_ult uc) s).stack) := by
  intro l
  induction l with
  | nil => intro s h; exact h
  | cons x xs ih =>
    intro s h
    simp only [List.foldl_cons]
    exact ih _ (rfStep_decr flmargin l_ult uc s x h)

theorem collapseN_fuel (flmargin l_ult uc : ℚ) :
    ∀ (f1 f2 : ℕ) (s : RFState), s.stack.length ≤ f1 → s.stack.length ≤ f2 →
      collapseN flmargin l_ult uc f1 s = collapseN flmargin l_ult uc f2 s := by
  intro f1
  induction f1 with
  | zero =>
    rintro f2 ⟨st, o, e, d⟩ h1 _
    have hst : st = [] := List.length_eq_zero.mp (Nat.le_zero.mp h1)
    subst hst
    cases f2 with
    | zero => rfl
    | succ f2 => rfl
  | succ f1 ih =>
    rintro f2 ⟨st, o, e, d⟩ h1 h2
    cases f2 with
    | zero =>
      have hst : st = [] := List.length_eq_zero.mp (Nat.le_zero.mp h2)
      subst hst
      rfl
    | succ f2 =>
      rcases st with _ | ⟨c, _ | ⟨b, _ | ⟨a, _ | ⟨r, rs⟩⟩⟩⟩
      · rfl
      · rfl
      · rfl
      · simp only [collapseN]
        by_cases hc : fabs (b - a) ≤ fabs (c - b)
        · simp only [if_pos hc]
          apply ih
          · simp only [List.length_cons, List.length_nil] at h1 ⊢
            omega
          · simp only [List.length_cons, List.length_nil] at h2 ⊢
            omega
        · simp only [if_neg hc]
      · simp only [collapseN]
        by_cases hc : fabs (b - a) ≤ fabs (c - b)
        · simp only [if_pos hc]
          apply ih
          · simp only [List.length_cons] at h1 ⊢
            omega
          · simp only [List.length_cons] at h2 ⊢
            omega
        · simp only [if_neg hc]

theorem collapseN_step_full (flmargin l_ult uc c b a r : ℚ) (rs : List ℚ)
    (o : List RFCycle) (e d f : ℕ)
    (hc : fabs (b - a) ≤ fabs (c - b)) (hr : 0 < fabs (b - a)) :
    collapseN flmargin l_ult uc (f + 1) ⟨c :: b :: a :: r :: rs, o, e, d⟩ =
      collapseN flmargin l_ult uc f
        ⟨c :: r :: rs, o ++ [mkCycle flmargin l_ult (fabs (b - a)) ((b + a) / 2) 1],
         e + 2, d + 0⟩ := by
  simp only [collapseN, if_pos hc, if_pos hr]

theorem collapseN_step_bottom (flmargin l_ult uc c b a : ℚ)
    (o : List RFCycle) (e d f : ℕ)
    (hc : fabs (b - a) ≤ fabs (c - b)) (hr : 0 < fabs (b - a)) :
    collapseN flmargin l_ult uc (f + 1) ⟨[c, b, a], o, e, d⟩ =
      collapseN flmargin l_ult uc f
        ⟨[c, b], o ++ [mkCycle flmargin l_ult (fabs (b - a)) ((a + b) / 2) uc],
         e + 1, d + 0⟩ := by
  simp only [collapseN, if_pos hc, if_pos hr]

theorem collapseN_stuck (flmargin l_ult uc c b a : ℚ) (rest : List ℚ)
    (o : List RFCycle) (e d f : ℕ)
    (hc : ¬ fabs (b - a) ≤ fabs (c - b)) :
    collapseN flmargin l_ult uc f ⟨c :: b :: a :: rest, o, e, d⟩ =
      ⟨c :: b :: a :: rest, o, e, d⟩ := by
  cases f with
  | zero => rfl
  | succ f => rcases rest with _ | ⟨r, rs⟩ <;> simp only [collapseN, if_neg hc]

theorem collapseN_small (flmargin l_ult uc : ℚ) (f : ℕ) (s : RFState)
    (h : s.stack.length < 3) : collapseN flmargin l_ult uc f s = s := by
  cases f with
  | zero => rfl
  | succ f =>
    obtain ⟨st, o, e, d⟩ := s
    rcases st with _ | ⟨c, _ | ⟨b, _ | ⟨a, rest⟩⟩⟩
    · rfl
    · rfl
    · rfl
    · exfalso
      simp only [List.length_cons] at h
      omega

theorem rainflow_out_eq (input : List ℚ) (flm l_ult uc : ℚ) (cycles : List RFCycle)
    (h : rainflow input flm l_ult uc = some cycles) :
    cycles = (rainflowRun input flm l_ult uc).out := by
  unfold rainflow at h
  by_cases he : input.length < 2
  · rw [if_pos he] at h
    cases h
  · rw [if_neg he] at h
    exact (Option.some.inj h).symm

theorem rainflow_two_point :
    rainflow [0, 2] 0 1 (1 / 2) =
      some [{ lrange := 2, mean := 1, adj_range := 0, count := 1 / 2,
              adj_zero_mean_range := 0 }] := by
  norm_num [rainflow, rainflowRun, rfLoop, rfStep, collapse, collapseN,
    residualPairs, residualStep, mkCycle, fabs]

/-- Claim C1 counterexample.  The claim states that whenever the working
stack holds at least 3 points `A, B, C` (most recent last) with
`|A - B| <= |B - C|`, the interval `(A, B)` is recorded as a closed FULL
cycle and BOTH `A` and `B` leave the stack (collapse by two).  On the
stack `A = 0, B = 1, C = 3` (head-first `[3, 1, 0]`, the `j == 2` source
branch), the code instead records `(A, B)` with the partial weight
`uc_mult = 1/2` and removes only `A`: the stack after the collapse is
`[3, 1]` (two points, not one) and the recorded weight is `1/2`, not a
full count. -/
theorem claim_C1_counterexample :
    (collapse (10 ^ 16) (10 ^ 16) (1 / 2) ⟨[3, 1, 0], [], 0, 0⟩).stack = [3, 1] ∧
      (collapse (10 ^ 16) (10 ^ 16) (1 / 2) ⟨[3, 1, 0], [], 0, 0⟩).out.map
        RFCycle.count = [1 / 2] := by
  constructor <;>
    norm_num [collapse, collapseN, mkCycle, fabs]

/-- Claim C1 (amended).  When the stack holds at least 4 points and the
three most recent retained points `A, B, C` satisfy `|A - B| <= |B - C|`
(with positive range), the interval `(A, B)` is recorded as a closed full
cycle (weight 1), both `A` and `B` are removed, and the test is re-applied
to the new top of the stack; when the stack holds exactly 3 points, the
interval `(A, B)` is instead recorded as a half cycle with weight
`partial_cycle_weight` and only `A` is removed (the stack collapses by
one); when the test fails, no collapse happens. -/
theorem claim_C1_collapse_rule (flmargin l_ult uc c b a : ℚ) (rest : List ℚ)
    (o : List RFCycle) (e d : ℕ) :
    (rest ≠ [] → fabs (b - a) ≤ fabs (c - b) → 0 < fabs (b - a) →
      collapse flmargin l_ult uc ⟨c :: b :: a :: rest, o, e, d⟩ =
        collapse flmargin l_ult uc
          ⟨c :: rest, o ++ [mkCycle flmargin l_ult (fabs (b - a)) ((b + a) / 2) 1],
           e + 2, d⟩) ∧
    (fabs (b - a) ≤ fabs (c - b) → 0 < fabs (b - a) →
      collapse flmargin l_ult uc ⟨[c, b, a], o, e, d⟩ =
        ⟨[c, b], o ++ [mkCycle flmargin l_ult (fabs (b - a)) ((a + b) / 2) uc],
         e + 1, d⟩) ∧
    (¬ fabs (b - a) ≤ fabs (c - b) →
      collapse flmargin l_ult uc ⟨c :: b :: a :: rest, o, e, d⟩ =
        ⟨c :: b :: a :: rest, o, e, d⟩) := by
  refine ⟨?_, ?_, ?_⟩
  · intro hrest hc hr
    rcases rest with _ | ⟨r, rs⟩
    · exact absurd rfl hrest
    · unfold collapse
      simp only [List.length_cons]
      rw [collapseN_step_full flmargin l_ult uc c b a r rs o e d _ hc hr]
      simp only [Nat.add_zero]
      apply collapseN_fuel
      · simp only [List.length_cons]
        omega
      · simp only [List.length_cons]
        omega
  · intro hc hr
    unfold collapse
    simp only [List.length_cons, List.length_nil]
    rw [collapseN_step_bottom flmargin l_ult uc c b a o e d _ hc hr]
    rw [collapseN_small]
    · simp
    · simp
  · intro hc
    unfold collapse
    exact collapseN_stuck flmargin l_ult uc c b a rest o e d _ hc

theorem claim_C1_witness :
    collapse (10 ^ 16) (10 ^ 16) (1 / 2) ⟨[3, 1, 0, 5], [], 0, 0⟩ =
      collapse (10 ^ 16) (10 ^ 16) (1 / 2)
        ⟨[3, 5], [mkCycle (10 ^ 16) (10 ^ 16) (fabs ((1 : ℚ) - 0)) ((1 + 0) / 2) 1],
         2, 0⟩ ∧
    collapse (10 ^ 16) (10 ^ 16) (1 / 2) ⟨[3, 1, 0], [], 0, 0⟩ =
      ⟨[3, 1], [mkCycle (10 ^ 16) (10 ^ 16) (fabs ((1 : ℚ) - 0)) ((0 + 1) / 2) (1 / 2)],
       1, 0⟩ ∧
    collapse (10 ^ 16) (10 ^ 16) (1 / 2) ⟨[3, 1, 10], [], 0, 0⟩ =
      ⟨[3, 1, 10], [], 0, 0⟩ := by
  obtain ⟨h1, h2, _⟩ :=
    claim_C1_collapse_rule (10 ^ 16) (10 ^ 16) (1 / 2) 3 1 0 [5] [] 0 0
  obtain ⟨_, _, h3⟩ :=
    claim_C1_collapse_rule (10 ^ 16) (10 ^ 16) (1 / 2) 3 1 10 [] [] 0 0
  exact ⟨h1 (by simp) (by norm_num [fabs]) (by norm_num [fabs]),
         h2 (by norm_num [fabs]) (by norm_num [fabs]),
         h3 (by norm_num [fabs])⟩

/-- Claim C2 counterexample.  The claim states that if an emitted cycle's
mean satisfies `|mean| == ultimate_load`, `rainflow` fails with a
`DegenerateLoadMargin` error.  With `ultimate_load = 1` and input
`[0, 2]`, the residual cycle has mean `1 = ultimate_load`, yet the code
reports no error at all: it emits the cycle, computing the Goodman fields
by the unguarded division `range * margin / (l_ult - |mean|)` whose
denominator is zero (IEEE floats give inf/NaN; in this rational model the
zero-denominator division yields `0`). -/
theorem claim_C2_counterexample :
    rainflow [0, 2] 0 1 (1 / 2) =
      some [{ lrange := 2, mean := 1, adj_range := 0, count := 1 / 2,
              adj_zero_mean_range := 0 }] ∧
      fabs 1 = (1 : ℚ) := by
  exact ⟨rainflow_two_point, by norm_num [fabs]⟩

/-- Claim C2 (amended).  `rainflow` contains no degenerate-load-margin
check: for every input of at least 2 turning points and every
configuration it returns a cycle list and never an error condition, even
when an emitted cycle's mean equals the ultimate load; the Goodman
fields are then produced by the unguarded division by zero instead of a
reported failure.  (The only error paths are the short-input ones of
claim C3, which are unrelated to the load margin.) -/
theorem claim_C2_no_degenerate_check (input : List ℚ) (flm l_ult uc : ℚ)
    (h : 2 ≤ input.length) : (rainflow input flm l_ult uc).isSome = true := by
  unfold rainflow
  rw [if_neg (by omega)]
  rfl

theorem claim_C2_witness : (rainflow [0, 2] 0 1 (1 / 2)).isSome = true :=
  claim_C2_no_degenerate_check [0, 2] 0 1 (1 / 2) (by simp)

/-- Claim C3 counterexample.  The claim states that every input of fewer
than 2 turning points, including the empty sequence, yields an empty
cycle list and no error.  On the empty sequence the source allocates
`np.zeros((5, tot_num - 1))` with `tot_num - 1 = -1`, which raises a
`ValueError` (negative dimensions are not allowed), modelled here as
`none`. -/
theorem claim_C3_counterexample :
    rainflow ([] : List ℚ) 0 (10 ^ 16) (1 / 2) = none := rfl

/-- Claim C3 (amended).  Neither input of fewer than 2 turning points
yields an empty cycle list; both raise.  The empty input raises a
`ValueError` from the negative output-buffer dimension in
`np.zeros((5, tot_num - 1))`; a one-point input raises an `IndexError`
because the non-short-circuiting `&` in the while condition evaluates
`a[j - 2] = a[-2]` at `j = 0`, an out-of-bounds read of the one-element
work buffer.  Both error paths are modelled as `none`. -/
theorem claim_C3_short_input (x flm l_ult uc : ℚ) :
    rainflow [x] flm l_ult uc = none ∧ rainflow [] flm l_ult uc = none := by
  exact ⟨rfl, rfl⟩

/-- Claim C4 counterexample.  The claim states that the reference signal
`[3, -2, 4, 2, 5, -1, 1, 0, 3]` with the default configuration emits
exactly 4 cycles in total.  The code emits 6 cycle records (columns of
`array_out`), not 4. -/
theorem claim_C4_counterexample :
    Option.map List.length
        (rainflow [3, -2, 4, 2, 5, -1, 1, 0, 3] 0 (10 ^ 16) (1 / 2)) = some 6 ∧
      (6 : ℕ) ≠ 4 := by
  refine ⟨?_, by decide⟩
  norm_num [rainflow, rainflowRun, rfLoop, rfStep, collapse, collapseN,
    residualPairs, residualStep, mkCycle, fabs]

/-- Claim C4 (amended).  On the reference signal with
`fixed_load_mean = 0`, `ultimate_load = 1e16`, `partial_cycle_weight = 0.5`,
the algorithm emits 6 cycle records whose count weights are
`[0.5, 1, 1, 0.5, 0.5, 0.5]` (2 full cycles and 4 half cycles); the total
cycle count, i.e. the sum of the count weights, is exactly 4. -/
theorem claim_C4_totals :
    Option.map (fun l => l.map RFCycle.count)
        (rainflow [3, -2, 4, 2, 5, -1, 1, 0, 3] 0 (10 ^ 16) (1 / 2)) =
      some [1 / 2, 1, 1, 1 / 2, 1 / 2, 1 / 2] ∧
    Option.map sumCounts
        (rainflow [3, -2, 4, 2, 5, -1, 1, 0, 3] 0 (10 ^ 16) (1 / 2)) = some 4 := by
  constructor <;>
    norm_num [rainflow, rainflowRun, rfLoop, rfStep, collapse, collapseN,
      residualPairs, residualStep, mkCycle, fabs, sumCounts]

/-- Claim C5 counterexample.  The claim states that the sum of the count
weights equals `(number_of_turning_points - 1) - discarded`.  For the
input `[0, 1]` the code emits one residual half cycle of weight `1/2`
with nothing discarded, while `(2 - 1) - 0 = 1`. -/
theorem claim_C5_counterexample :
    sumCounts (rainflowRun [0, 1] 0 (10 ^ 16) (1 / 2)).out = 1 / 2 ∧
      (rainflowRun [0, 1] 0 (10 ^ 16) (1 / 2)).discardedUnits = 0 ∧
      (1 / 2 : ℚ) ≠ ((([0, 1] : List ℚ).length : ℚ) - 1) - 0 := by
  refine ⟨?_, ?_, by norm_num⟩ <;>
    norm_num [rainflowRun, rfLoop, rfStep, collapse, collapseN,
      residualPairs, residualStep, mkCycle, fabs, sumCounts]

/-- Claim C5 (amended).  Conservation holds in half-interval units, not
in count weights: with `partial_cycle_weight = 0.5`, TWICE the sum of the
emitted count weights equals `(number_of_turning_points - 1)` minus the
number of discarded zero-range interval units (each discarded interval
counts 1 unit in the partial/residual paths and 2 in the full path).
Every consumed interval unit becomes either counted or discarded. -/
theorem claim_C5_weight_conservation (input : List ℚ) (flm l_ult : ℚ)
    (h : input ≠ []) :
    2 * sumCounts (rainflowRun input flm l_ult (1 / 2)).out =
      (((input.length : ℚ) - 1) -
        ((rainflowRun input flm l_ult (1 / 2)).discardedUnits : ℚ)) := by
  have h1 := rainflowRun_weights input flm l_ult
  have h2 := rainflowRun_units input flm l_ult (1 / 2) h
  have h2q : ((rainflowRun input flm l_ult (1 / 2)).emittedUnits : ℚ) +
      ((rainflowRun input flm l_ult (1 / 2)).discardedUnits : ℚ) + 1 =
      (input.length : ℚ) := by
    exact_mod_cast h2
  rw [h1]
  linarith

theorem claim_C5_witness :
    2 * sumCounts (rainflowRun [0, 1] 0 (10 ^ 16) (1 / 2)).out =
      (((([0, 1] : List ℚ).length : ℚ) - 1) -
        ((rainflowRun [0, 1] 0 (10 ^ 16) (1 / 2)).discardedUnits : ℚ)) :=
  claim_C5_weight_conservation [0, 1] 0 (10 ^ 16) (by simp)

/-- Claim C6 (confirmed).  Every cycle emitted by `rainflow` — whether by
the partial, full, or residual path — has defining endpoints `p, q` with
`range = |p - q|`, `mean = (p + q) / 2`,
`goodman_range = range * (ultimate_load - |fixed_load_mean|) / (ultimate_load - |mean|)`
and `goodman_zero_mean_range = range * ultimate_load / (ultimate_load - |mean|)`. -/
theorem claim_C6_goodman_fields (input : List ℚ) (flm l_ult uc : ℚ)
    (cycles : List RFCycle) (h : rainflow input flm l_ult uc = some cycles) :
    ∀ c ∈ cycles, ∃ p q,
      c.lrange = fabs (p - q) ∧ c.mean = (p + q) / 2 ∧
      c.adj_range = c.lrange * (l_ult - fabs flm) / (l_ult - fabs c.mean) ∧
      c.adj_zero_mean_range = c.lrange * l_ult / (l_ult - fabs c.mean) := by
  intro c hc
  rw [rainflow_out_eq input flm l_ult uc cycles h] at hc
  obtain ⟨p, q, w, _, _, hceq⟩ := rainflowRun_out_shape input flm l_ult uc c hc
  subst hceq
  exact ⟨p, q, rfl, rfl, by simp [mkCycle], by simp [mkCycle]⟩

theorem claim_C6_witness :
    ∃ p q, (2 : ℚ) = fabs (p - q) ∧ (1 : ℚ) = (p + q) / 2 ∧
      (0 : ℚ) = 2 * ((1 : ℚ) - fabs 0) / (1 - fabs 1) ∧
      (0 : ℚ) = 2 * (1 : ℚ) / (1 - fabs 1) := by
  have h := claim_C6_goodman_fields [0, 2] 0 1 (1 / 2)
    [{ lrange := 2, mean := 1, adj_range := 0, count := 1 / 2,
       adj_zero_mean_range := 0 }] rainflow_two_point
    { lrange := 2, mean := 1, adj_range := 0, count := 1 / 2,
      adj_zero_mean_range := 0 } (by simp)
  exact h

/-- Claim C7 (confirmed).  Every emitted cycle has `range >= 0` and no
emitted cycle has `range == 0`: zero-range intervals are discarded by the
`lrange > 0` guard in the partial, full and residual paths. -/
theorem claim_C7_positive_ranges (input : List ℚ) (flm l_ult uc : ℚ)
    (cycles : List RFCycle) (h : rainflow input flm l_ult uc = some cycles) :
    ∀ c ∈ cycles, 0 ≤ c.lrange ∧ c.lrange ≠ 0 := by
  intro c hc
  rw [rainflow_out_eq input flm l_ult uc cycles h] at hc
  obtain ⟨p, q, w, _, hpos, hceq⟩ := rainflowRun_out_shape input flm l_ult uc c hc
  subst hceq
  constructor
  · simp only [mkCycle]
    exact le_of_lt hpos
  · simp only [mkCycle]
    exact ne_of_gt hpos

theorem claim_C7_witness : (0 : ℚ) ≤ 2 ∧ (2 : ℚ) ≠ 0 := by
  have h := claim_C7_positive_ranges [0, 2] 0 1 (1 / 2)
    [{ lrange := 2, mean := 1, adj_range := 0, count := 1 / 2,
       adj_zero_mean_range := 0 }] rainflow_two_point
    { lrange := 2, mean := 1, adj_range := 0, count := 1 / 2,
      adj_zero_mean_range := 0 } (by simp)
  exact h

/-- Claim C8 counterexample.  The claim states the working stack holds at
most the last 3 unresolved turning points after each push and collapse
loop.  After consuming `[0, 8, 2, 6]` (strictly decreasing interval
ranges 8, 6, 4, so no collapse ever fires) the stack holds 4 points. -/
theorem claim_C8_counterexample :
    (rainflowRun [0, 8, 2, 6] 0 (10 ^ 16) (1 / 2)).stack.length = 4 ∧
      ¬ (rainflowRun [0, 8, 2, 6] 0 (10 ^ 16) (1 / 2)).stack.length ≤ 3 := by
  constructor <;>
    norm_num [rainflowRun, rfLoop, rfStep, collapse, collapseN,
      residualPairs, residualStep, mkCycle, fabs]

/-- Claim C8 (amended).  The working stack is not bounded by 3 points; it
holds all still-unresolved turning points.  The invariant that holds after
each push and the following collapse loop (hence after processing any
input prefix) is that the absolute ranges of consecutive stack intervals
strictly decrease toward the top of the stack — equivalently, no three
topmost retained points satisfy the collapse test. -/
theorem claim_C8_stack_invariant (input : List ℚ) (flm l_ult uc : ℚ) :
    decrRanges (rainflowRun input flm l_ult uc).stack := by
  unfold rainflowRun
  simp only
  rw [foldl_residualStep_stack]
  exact foldl_rfStep_decr (l_ult - fabs flm) l_ult uc input ⟨[], [], 0, 0⟩ trivial

/-- Claim C9 counterexample.  The claim states that `rainflow_process`
stores the arithmetic mean of the full input signal and performs no unit
rescaling of its own.  For the series `[100, 0]` (mean 50) with turning
points `(0, 100)` and `(1, 0)`, the method stores `mean_soc = 1/2`
(it divides by the hard-coded factor 100), and stores the cycle range
`100` as `1` in `arr_dod` — a rescaling not supplied by any caller. -/
theorem claim_C9_counterexample :
    rainflow_process [100, 0] [(1, 0)] [(0, 100)] =
      some ⟨1 / 2, [1], [1 / 2], [1 / 2]⟩ ∧
      ((100 : ℚ) + 0) / 2 = 50 ∧ (1 / 2 : ℚ) ≠ 50 ∧ (1 : ℚ) ≠ 100 := by
  refine ⟨?_, by norm_num, by norm_num, by norm_num⟩
  norm_num [rainflow_process, array_ext_of, sortCyclesByRange, List.insertionSort,
    List.orderedInsert, rainflow, rainflowRun, rfLoop, rfStep, collapse, collapseN,
    residualPairs, residualStep, mkCycle, fabs]

/-- Claim C9 (amended).  `rainflow_process` computes `mean_soc` as the
arithmetic mean of the full input series divided by the HARD-CODED factor
100 (percentage-to-fraction conversion inside the core, not a
caller-supplied scale), and likewise divides every cycle range and cycle
mean by 100; only the count weights are stored unscaled. -/
theorem claim_C9_process_scaling (series : List ℚ)
    (min_points max_points : List (ℚ × ℚ)) (cycles : List RFCycle)
    (h : rainflow (array_ext_of min_points max_points) 0 (10 ^ 16) (1 / 2) =
      some cycles) :
    rainflow_process series min_points max_points =
      some ⟨series.sum / (series.length : ℚ) / 100,
            (sortCyclesByRange cycles).map (fun c => c.lrange / 100),
            (sortCyclesByRange cycles).map RFCycle.count,
            (sortCyclesByRange cycles).map (fun c => c.mean / 100)⟩ := by
  unfold rainflow_process
  rw [h]

theorem claim_C9_witness :
    rainflow_process [100, 0] [(1, 0)] [(0, 100)] =
      some ⟨([100, 0] : List ℚ).sum / ((([100, 0] : List ℚ).length : ℕ) : ℚ) / 100,
            (sortCyclesByRange
              [{ lrange := 100, mean := 50,
                 adj_range := 100 * 10 ^ 16 / (10 ^ 16 - 50), count := 1 / 2,
                 adj_zero_mean_range := 100 * 10 ^ 16 / (10 ^ 16 - 50) }]).map
              (fun c => c.lrange / 100),
            (sortCyclesByRange
              [{ lrange := 100, mean := 50,
                 adj_range := 100 * 10 ^ 16 / (10 ^ 16 - 50), count := 1 / 2,
                 adj_zero_mean_range := 100 * 10 ^ 16 / (10 ^ 16 - 50) }]).map
              RFCycle.count,
            (sortCyclesByRange
              [{ lrange := 100, mean := 50,
                 adj_range := 100 * 10 ^ 16 / (10 ^ 16 - 50), count := 1 / 2,
                 adj_zero_mean_range := 100 * 10 ^ 16 / (10 ^ 16 - 50) }]).map
              (fun c => c.mean / 100)⟩ :=
  claim_C9_process_scaling [100, 0] [(1, 0)] [(0, 100)]
    [{ lrange := 100, mean := 50, adj_range := 100 * 10 ^ 16 / (10 ^ 16 - 50),
       count := 1 / 2, adj_zero_mean_range := 100 * 10 ^ 16 / (10 ^ 16 - 50) }]
    (by norm_num [array_ext_of, List.insertionSort, List.orderedInsert, rainflow,
      rainflowRun, rfLoop, rfStep, collapse, collapseN, residualPairs,
      residualStep, mkCycle, fabs])

/-- Claim C10 (confirmed).  For every input of `n >= 1` turning points
that returns normally, `rainflow` emits at most `n - 1` cycles, so every
column written into the preallocated `5 x (n - 1)` output buffer has
index at most `n - 2` (cycles are written at consecutive indices
`0, 1, ...`), and the returned array has `po <= n - 1` columns. -/
theorem claim_C10_output_bound (input : List ℚ) (flm l_ult uc : ℚ)
    (cycles : List RFCycle) (h : rainflow input flm l_ult uc = some cycles) :
    cycles.length ≤ input.length - 1 := by
  have hne : input ≠ [] := by
    intro he
    subst he
    cases h
  rw [rainflow_out_eq input flm l_ult uc cycles h]
  have h1 := rainflowRun_out_length input flm l_ult uc
  have h2 := rainflowRun_units input flm l_ult uc hne
  omega

theorem claim_C10_witness :
    ([{ lrange := 2, mean := 1, adj_range := 0, count := 1 / 2,
        adj_zero_mean_range := 0 }] : List RFCycle).length ≤
      ([0, 2] : List ℚ).length - 1 :=
  claim_C10_output_bound [0, 2] 0 1 (1 / 2) _ rainflow_two_point
